import Mathlib

/-!
Verification development for `circular_buffer.h`: a generic double-ended
random-access container over a ring-shaped storage block.

The C++ container state is five fields: `sz`, `cap`, `data` (a raw pointer to a
block of `cap` slots), `ind_begin` and `ind_end`.  We embed it shallowly:

* `data : List α` models the allocated block; its length is the block size.
  Uninitialized slots hold junk, modelled by `default` (element destruction is
  unobservable under value semantics, so "dead" slots simply keep a value).
* `gen : Nat` is instrumentation modelling the *address* stored in the `data`
  pointer: `0` stands for `nullptr`, and every fresh allocation (in `reserve`)
  produces a new address, modelled by bumping `gen`.  Iterator equality in the
  source compares the `data` pointers, which is exactly generation equality,
  because the new block of a reallocation is allocated while the old one is
  still live and hence has a distinct address.
* `size_t` index arithmetic such as `(i - 1 + cap) % cap` is written
  `(i + cap - 1) % cap` in `Nat`; for the in-range indices the container ever
  produces (`i < cap`, `cap > 0`) the two agree with the C++ unsigned
  wraparound semantics.
* `assert` failures are modelled by `Option`/`Except` error results.
-/

set_option linter.unusedSectionVars false
set_option linter.unusedVariables false

structure circular_buffer (α : Type) where
  sz : Nat
  cap : Nat
  data : List α
  ind_begin : Nat
  ind_end : Nat
  gen : Nat
deriving DecidableEq

namespace circular_buffer

variable {α : Type} [Inhabited α]

/-- The default-constructed container: all scalar fields zero, null storage. -/
def emptyCB : circular_buffer α :=
  { sz := 0, cap := 0, data := [], ind_begin := 0, ind_end := 0, gen := 0 }

/-- `size()`. -/
def size (b : circular_buffer α) : Nat := b.sz

/-- `empty()`. -/
def isEmpty (b : circular_buffer α) : Bool := b.sz == 0

/-- The logical contents of the buffer: `data[(ind_begin + i) % cap]` for
`i = 0, …, sz-1`.  This is both the order in which `reserve`'s migration loop
and the copy constructor read the elements, and the abstraction function to
the plain list model. -/
def toList (b : circular_buffer α) : List α :=
  (List.range b.sz).map (fun i => b.data.getD ((b.ind_begin + i) % b.cap) default)

/-- `reserve(n)`: no-op when `sz >= n`; otherwise allocate a block of `n`
slots, copy the live elements into slots `0, …, sz-1` in logical order
(`toList` is exactly that loop's read order), and adopt the new block with
`ind_begin = 0`, `ind_end = sz`.  The remaining `n - sz` slots are
uninitialized junk.  The allocation yields a fresh address (`gen` bump). -/
def reserve (b : circular_buffer α) (n : Nat) : circular_buffer α :=
  if n ≤ b.sz then b
  else
    { sz := b.sz
      cap := n
      data := b.toList ++ List.replicate (n - b.sz) default
      ind_begin := 0
      ind_end := b.sz
      gen := b.gen + 1 }

/-- The growth step at the head of `push_back`:
`if (empty()) reserve(4); else if (sz == cap - 1) reserve(cap * 2);`. -/
def growBack (b : circular_buffer α) : circular_buffer α :=
  if b.sz = 0 then b.reserve 4
  else if b.sz = b.cap - 1 then b.reserve (b.cap * 2)
  else b

/-- The growth step at the head of `push_front`:
`if (empty()) reserve(4); else if (sz == cap - 1) reserve(sz * 2);`. -/
def growFront (b : circular_buffer α) : circular_buffer α :=
  if b.sz = 0 then b.reserve 4
  else if b.sz = b.cap - 1 then b.reserve (b.sz * 2)
  else b

/-- `push_back` after the growth step: construct at slot `ind_end`, then
`ind_end = (ind_end + 1) % cap; sz++`. -/
def pbCore (g : circular_buffer α) (v : α) : circular_buffer α :=
  { g with data := g.data.set g.ind_end v
           ind_end := (g.ind_end + 1) % g.cap
           sz := g.sz + 1 }

/-- `push_back(value)`. -/
def push_back (b : circular_buffer α) (v : α) : circular_buffer α :=
  pbCore b.growBack v

/-- `push_front` after the growth step: construct at slot
`(ind_begin - 1 + cap) % cap`, move `ind_begin` there, `sz++`. -/
def pfCore (g : circular_buffer α) (v : α) : circular_buffer α :=
  { g with data := g.data.set ((g.ind_begin + g.cap - 1) % g.cap) v
           ind_begin := (g.ind_begin + g.cap - 1) % g.cap
           sz := g.sz + 1 }

/-- `push_front(value)`. -/
def push_front (b : circular_buffer α) (v : α) : circular_buffer α :=
  pfCore b.growFront v

/-- `pop_back()`: `assert(sz > 0)` (modelled by `none`), then `sz--`,
`ind_end = (ind_end - 1 + cap) % cap`, destroy the slot (unobservable). -/
def pop_back (b : circular_buffer α) : Option (circular_buffer α) :=
  if b.sz = 0 then none
  else some { b with sz := b.sz - 1, ind_end := (b.ind_end + b.cap - 1) % b.cap }

/-- `pop_front()`: `assert(sz > 0)`, then `sz--`, destroy the front slot,
`ind_begin = (ind_begin + 1) % cap`. -/
def pop_front (b : circular_buffer α) : Option (circular_buffer α) :=
  if b.sz = 0 then none
  else some { b with sz := b.sz - 1, ind_begin := (b.ind_begin + 1) % b.cap }

/-- `front()`: `assert(sz > 0)`, then `data[ind_begin]`. -/
def front (b : circular_buffer α) : Option α :=
  if b.sz = 0 then none else some (b.data.getD b.ind_begin default)

/-- `back()`: `assert(sz > 0)`, then `data[(ind_end - 1 + cap) % cap]`. -/
def back (b : circular_buffer α) : Option α :=
  if b.sz = 0 then none
  else some (b.data.getD ((b.ind_end + b.cap - 1) % b.cap) default)

/-- `operator[](ind)`: `assert(ind < sz)`, then `data[(ind_begin + ind) % cap]`. -/
def index (b : circular_buffer α) (i : Nat) : Option α :=
  if i < b.sz then some (b.data.getD ((b.ind_begin + i) % b.cap) default)
  else none

/-- The `while (sz > 0) pop_back();` loop of `clear`, run for a given number
of iterations (the loop body runs exactly `sz` times). -/
def popN (b : circular_buffer α) : Nat → circular_buffer α
  | 0 => b
  | n + 1 =>
    match b.pop_back with
    | some b' => popN b' n
    | none => b

/-- `clear()`: pop every element (element destruction is unobservable here),
release the block (`operator delete`), and zero all scalar fields; `data`
becomes null. -/
def clear (b : circular_buffer α) : circular_buffer α :=
  let _discarded := b.popN b.sz
  { sz := 0, cap := 0, data := [], ind_begin := 0, ind_end := 0, gen := 0 }

/-- The copy constructor: start from the default-constructed state and
`push_back(oth[i])` for `i = 0, …, oth.size()-1`; `toList` is exactly the
sequence of values `oth[i]` read by that loop. -/
def copyCB (b : circular_buffer α) : circular_buffer α :=
  b.toList.foldl push_back emptyCB

/-- The member `swap`: `std::swap` on each of the five fields (including the
`data` pointer, hence also the modelled address `gen`). -/
def swapCB (a b : circular_buffer α) : circular_buffer α × circular_buffer α :=
  ({ sz := b.sz, cap := b.cap, data := b.data, ind_begin := b.ind_begin
     ind_end := b.ind_end, gen := b.gen },
   { sz := a.sz, cap := a.cap, data := a.data, ind_begin := a.ind_begin
     ind_end := a.ind_end, gen := a.gen })

/-- The free function `swap(a, b)`, which calls `a.swap(b)`. -/
def swapFree (a b : circular_buffer α) : circular_buffer α × circular_buffer α :=
  swapCB a b

/-- `basic_iterator`: the value tuple `(ind, cap, data, ind_begin)`.  The
`data` pointer is modelled by the owning buffer's allocation identity `gen`
(see the header comment); `ind_begin` is the snapshot of the container's begin
index taken when the iterator was created. -/
structure basic_iterator where
  ind : Nat
  cap : Nat
  gen : Nat
  ind_begin : Nat
deriving DecidableEq

namespace basic_iterator

/-- `get_pos()`: `(ind + cap - ind_begin) % cap`. -/
def get_pos (it : basic_iterator) : Nat :=
  (it.ind + it.cap - it.ind_begin) % it.cap

/-- `operator==`: compares `ind` and the `data` pointer (here: `gen`). -/
def iterEq (a b : basic_iterator) : Bool :=
  a.ind == b.ind && a.gen == b.gen

/-- `operator++`: `ind = (ind + 1) % cap`. -/
def incr (it : basic_iterator) : basic_iterator :=
  { it with ind := (it.ind + 1) % it.cap }

/-- `operator--`: `ind = (ind - 1 + cap) % cap`. -/
def decr (it : basic_iterator) : basic_iterator :=
  { it with ind := (it.ind + it.cap - 1) % it.cap }

/-- `operator+(ch)`: `ind = (ind + ch) % cap`. -/
def iterAdd (it : basic_iterator) (ch : Nat) : basic_iterator :=
  { it with ind := (it.ind + ch) % it.cap }

/-- `operator<`: `a.get_pos() < b.get_pos()`. -/
def ltIter (a b : basic_iterator) : Prop :=
  a.get_pos < b.get_pos

/-- `operator-(a, b)`: `a.get_pos() - b.get_pos()`.  In the source this is
`size_t` subtraction whose wrapped value, converted to `ptrdiff_t`, equals the
mathematical difference whenever both positions are below `2^63` (always true
of a real container), so it is embedded as the `Int` difference. -/
def subIter (a b : basic_iterator) : Int :=
  (a.get_pos : Int) - b.get_pos

end basic_iterator

open basic_iterator

/-- `begin()`: `iterator(ind_begin, cap, data, ind_begin)`. -/
def beginIt (b : circular_buffer α) : basic_iterator :=
  ⟨b.ind_begin, b.cap, b.gen, b.ind_begin⟩

/-- `end()`: `iterator(ind_end, cap, data, ind_begin)`. -/
def endIt (b : circular_buffer α) : basic_iterator :=
  ⟨b.ind_end, b.cap, b.gen, b.ind_begin⟩

/-- One adjacent-swap step `tmp = *it1; *it1 = *it2; *it2 = tmp;` on the
storage block, with `i`, `j` the physical indices of `it1`, `it2`. -/
def swapAt (d : List α) (i j : Nat) : List α :=
  let tmp := d.getD i default
  (d.set i (d.getD j default)).set j tmp

/-- The front-half `insert` loop, `while (it2 != pos) { swap; it1++; it2++; }`,
returning the final storage and `it1`.  The loop has no bound of its own, so it
is modelled with explicit fuel; `none` means the loop body ran `fuel` times
without the exit condition becoming true. -/
def insFrontLoop : Nat → List α → basic_iterator → basic_iterator → basic_iterator →
    Option (List α × basic_iterator)
  | 0, _, _, _, _ => none
  | fuel + 1, d, it1, it2, pos =>
    if iterEq it2 pos then some (d, it1)
    else insFrontLoop fuel (swapAt d it1.ind it2.ind) (incr it1) (incr it2) pos

/-- The back-half `insert` loop, `while (it2 != pos) { swap; it1--; it2--; }`,
returning the final storage and `it2`. -/
def insBackLoop : Nat → List α → basic_iterator → basic_iterator → basic_iterator →
    Option (List α × basic_iterator)
  | 0, _, _, _, _ => none
  | fuel + 1, d, it1, it2, pos =>
    if iterEq it2 pos then some (d, it2)
    else insBackLoop fuel (swapAt d it1.ind it2.ind) (decr it1) (decr it2) pos

/-- `insert(pos, value)`, following the source line by line: the two
delegating special cases, then the `pos.get_pos() <= sz / 2` half test (note
`sz` is read before the push). -/
def insertF (fuel : Nat) (b : circular_buffer α) (pos : basic_iterator) (v : α) :
    Option (circular_buffer α × basic_iterator) :=
  if iterEq pos b.beginIt then
    some (b.push_front v, (b.push_front v).beginIt)
  else if iterEq pos b.endIt then
    some (b.push_back v, decr (b.push_back v).endIt)
  else if pos.get_pos ≤ b.sz / 2 then
    match insFrontLoop fuel (b.push_front v).data (b.push_front v).beginIt
        (incr (b.push_front v).beginIt) pos with
    | some (d, it) => some ({ b.push_front v with data := d }, it)
    | none => none
  else
    match insBackLoop fuel (b.push_back v).data (decr (decr (b.push_back v).endIt))
        (decr (b.push_back v).endIt) pos with
    | some (d, it) => some ({ b.push_back v with data := d }, it)
    | none => none

/-- Failure modes of `erase`: the leading `assert`, or running out of loop
fuel. -/
inductive AErr where
  | assertFail
  | noFuel
deriving DecidableEq

/-- The front-half `erase` loop,
`while (it2 != begin()) { it1 = it2 - 1; swap; it2--; }`. -/
def eraseFrontLoop : Nat → List α → basic_iterator → basic_iterator → Option (List α)
  | 0, _, _, _ => none
  | fuel + 1, d, it2, bIt =>
    if iterEq it2 bIt then some d
    else eraseFrontLoop fuel (swapAt d (decr it2).ind it2.ind) (decr it2) bIt

/-- The back-half `erase` loop, `while (it2 != end()) { swap; it1++; it2++; }`. -/
def eraseBackLoop : Nat → List α → basic_iterator → basic_iterator → basic_iterator →
    Option (List α)
  | 0, _, _, _, _ => none
  | fuel + 1, d, it1, it2, eIt =>
    if iterEq it2 eIt then some d
    else eraseBackLoop fuel (swapAt d it1.ind it2.ind) (incr it1) (incr it2) eIt

/-- `erase(pos)`: `assert(pos.get_pos() < sz)`, the two delegating special
cases (whose inner `match` arms on `none` are the pops' own asserts, never
taken here), then the half split on `ind_pos_relative <= sz / 2`.  The
returned iterators are built after the pop, so they carry the updated
`ind_begin`, exactly as in the source. -/
def eraseF (fuel : Nat) (b : circular_buffer α) (pos : basic_iterator) :
    Except AErr (circular_buffer α × basic_iterator) :=
  if b.sz ≤ pos.get_pos then .error .assertFail
  else if iterEq pos b.beginIt then
    match b.pop_front with
    | some b' => .ok (b', b'.beginIt)
    | none => .error .assertFail
  else if iterEq pos (decr b.endIt) then
    match b.pop_back with
    | some b' => .ok (b', decr b'.endIt)
    | none => .error .assertFail
  else if pos.get_pos ≤ b.sz / 2 then
    match eraseFrontLoop fuel b.data
        ⟨(pos.get_pos + b.ind_begin) % b.cap, b.cap, b.gen, b.ind_begin⟩ b.beginIt with
    | some d =>
      match pop_front { b with data := d } with
      | some b' =>
        .ok (b', incr ⟨(pos.get_pos + b.ind_begin) % b.cap, b'.cap, b'.gen, b'.ind_begin⟩)
      | none => .error .assertFail
    | none => .error .noFuel
  else
    match eraseBackLoop fuel b.data
        ⟨(pos.get_pos + b.ind_begin) % b.cap, b.cap, b.gen, b.ind_begin⟩
        (incr ⟨(pos.get_pos + b.ind_begin) % b.cap, b.cap, b.gen, b.ind_begin⟩) b.endIt with
    | some d =>
      match pop_back { b with data := d } with
      | some b' =>
        .ok (b', ⟨(pos.get_pos + b.ind_begin) % b.cap, b'.cap, b'.gen, b'.ind_begin⟩)
      | none => .error .assertFail
    | none => .error .noFuel

/-- The four end operations, for reasoning about operation sequences. -/
inductive Op (α : Type) where
  | pushB (v : α)
  | pushF (v : α)
  | popB
  | popF
deriving DecidableEq

/-- Whether an operation is a pop. -/
def Op.isPop : Op α → Bool
  | .popB => true
  | .popF => true
  | _ => false

/-- Run one operation on the container.  Pops are guarded (`legalFrom` below
only admits them on a non-empty container, where the assert passes). -/
def stepC (b : circular_buffer α) : Op α → circular_buffer α
  | .pushB v => b.push_back v
  | .pushF v => b.push_front v
  | .popB => b.pop_back.getD b
  | .popF => b.pop_front.getD b

/-- Run an operation sequence on the container. -/
def runC (b : circular_buffer α) (ops : List (Op α)) : circular_buffer α :=
  ops.foldl stepC b

/-- Run one operation on the plain double-ended list model. -/
def stepL (l : List α) : Op α → List α
  | .pushB v => l ++ [v]
  | .pushF v => v :: l
  | .popB => l.dropLast
  | .popF => l.tail

/-- Run an operation sequence on the plain list model. -/
def runL (l : List α) (ops : List (Op α)) : List α :=
  ops.foldl stepL l

/-- The sequence applies pops only to a non-empty container. -/
def legalFrom (b : circular_buffer α) : List (Op α) → Bool
  | [] => true
  | op :: rest => (!op.isPop || b.sz != 0) && legalFrom (stepC b op) rest

/-- Invariant 1 of the spec: `0 ≤ sz < cap` whenever `cap > 0`, and
`cap == 0` only in the empty, unallocated state. -/
def Inv1 (b : circular_buffer α) : Prop :=
  (0 < b.cap → b.sz < b.cap) ∧ (b.cap = 0 → b.sz = 0)

/-- Resource events of a reallocation, instrumenting `reserve`:
raw-block allocation and release, and per-slot element construction and
destruction.  Blocks are named by caller-chosen identifiers. -/
inductive Ev where
  | allocNew (blk n : Nat)
  | construct (blk slot : Nat)
  | destroy (blk slot : Nat)
  | free (blk : Nat)
deriving DecidableEq

/-- `(blk, slot)` of every `construct` event, in order. -/
def constructedSlots : List Ev → List (Nat × Nat)
  | [] => []
  | .construct blk slot :: rest => (blk, slot) :: constructedSlots rest
  | _ :: rest => constructedSlots rest

/-- `(blk, slot)` of every `destroy` event, in order. -/
def destroyedSlots : List Ev → List (Nat × Nat)
  | [] => []
  | .destroy blk slot :: rest => (blk, slot) :: destroyedSlots rest
  | _ :: rest => destroyedSlots rest

/-- Identifiers of every allocated block, in order. -/
def allocBlks : List Ev → List Nat
  | [] => []
  | .allocNew blk _ :: rest => blk :: allocBlks rest
  | _ :: rest => allocBlks rest

/-- Identifiers of every released block, in order. -/
def freeBlks : List Ev → List Nat
  | [] => []
  | .free blk :: rest => blk :: freeBlks rest
  | _ :: rest => freeBlks rest

/-- A trace is balanced when the destroyed slots are exactly the constructed
slots (in reverse construction order — the unwind order of `pop_back`) and
the released blocks are exactly the allocated ones: nothing leaks and nothing
is double-freed. -/
def BalancedTrace (tr : List Ev) : Prop :=
  destroyedSlots tr = (constructedSlots tr).reverse ∧ freeBlks tr = allocBlks tr

/-- The migration loop of `reserve` with a fallible element copy constructor
`copyF` (`none` = the copy throws).  Returns the copied values when every
copy succeeds, and the number of elements successfully constructed before the
failure otherwise (they occupy new-block slots `0, …, k-1`). -/
def copyLoop (copyF : α → Option α) : List α → Option (List α) × Nat
  | [] => (some [], 0)
  | x :: rest =>
    match copyF x with
    | none => (none, 0)
    | some v =>
      let (r, k) := copyLoop copyF rest
      (r.map (fun l => v :: l), k + 1)

/-- `reserve(n)` instrumented with failure injection and resource events.
`allocOk = false` makes `operator new` throw (before anything is allocated);
`copyF` is the element copy constructor.  On a failure the local `tmp`
buffer's destructor runs during unwinding: it pops the `k` already-constructed
elements (destroying new-block slots `k-1, …, 0`) and releases the new block,
while `*this` is untouched.  On success, after `swap(tmp)` the same destructor
destroys the old elements at their physical slots in reverse logical order and
releases the old block (`operator delete(nullptr)` when there was none). -/
def reserveT (b : circular_buffer α) (n : Nat) (oldBlk newBlk : Nat) (allocOk : Bool)
    (copyF : α → Option α) : Bool × circular_buffer α × List Ev :=
  if n ≤ b.sz then (true, b, [])
  else if !allocOk then (false, b, [])
  else
    match copyLoop copyF b.toList with
    | (none, k) =>
      (false, b,
        Ev.allocNew newBlk n ::
          ((List.range k).map (Ev.construct newBlk) ++
           (List.range k).reverse.map (Ev.destroy newBlk) ++ [Ev.free newBlk]))
    | (some vals, _) =>
      (true,
        { sz := b.sz, cap := n, data := vals ++ List.replicate (n - b.sz) default
          ind_begin := 0, ind_end := b.sz, gen := b.gen + 1 },
        Ev.allocNew newBlk n ::
          ((List.range b.sz).map (Ev.construct newBlk) ++
           (List.range b.sz).reverse.map
             (fun i => Ev.destroy oldBlk ((b.ind_begin + i) % b.cap)) ++
           (if b.cap = 0 then [] else [Ev.free oldBlk])))

/-- `push_back` with its growth step instrumented: a failure inside the
triggered `reserve` propagates, leaving the container in the pre-push state.
(The subsequent construction of the pushed element itself is outside the
reallocation and not failure-injected.) -/
def push_backT (b : circular_buffer α) (v : α) (oldBlk newBlk : Nat) (allocOk : Bool)
    (copyF : α → Option α) : Bool × circular_buffer α × List Ev :=
  let r := if b.sz = 0 then reserveT b 4 oldBlk newBlk allocOk copyF
           else if b.sz = b.cap - 1 then reserveT b (b.cap * 2) oldBlk newBlk allocOk copyF
           else (true, b, [])
  match r with
  | (true, g, tr) => (true, pbCore g v, tr)
  | (false, b0, tr) => (false, b0, tr)

/-- `push_front` with its growth step instrumented, as for `push_backT`. -/
def push_frontT (b : circular_buffer α) (v : α) (oldBlk newBlk : Nat) (allocOk : Bool)
    (copyF : α → Option α) : Bool × circular_buffer α × List Ev :=
  let r := if b.sz = 0 then reserveT b 4 oldBlk newBlk allocOk copyF
           else if b.sz = b.cap - 1 then reserveT b (b.sz * 2) oldBlk newBlk allocOk copyF
           else (true, b, [])
  match r with
  | (true, g, tr) => (true, pfCore g v, tr)
  | (false, b0, tr) => (false, b0, tr)

/-- Spec-modelled logical position of an iterator, from the spec's ring-index
arithmetic: `logical_position(physical_index) =
(physical_index - begin_index + capacity) mod capacity`, computed in `Int`
where the subtraction cannot underflow. -/
def logicalPosZ (it : basic_iterator) : Int :=
  ((it.ind : Int) - it.ind_begin + it.cap) % it.cap

/-- Concrete container `[1, 2, 3]` built by three `push_back`s: `sz = 3`,
`cap = 4`, so the next push triggers a growth reallocation. -/
def exFull : circular_buffer Nat :=
  runC emptyCB [.pushB 1, .pushB 2, .pushB 3]

/-- A valid iterator at logical position 1 of `exFull` (i.e. `begin() + 1`). -/
def posMid : basic_iterator :=
  iterAdd (beginIt exFull) 1

/-- Concrete container with `sz = 0`, `cap = 8`: four `push_back`s (growing
capacity to 8 on the fourth) followed by four `pop_back`s. -/
def exDrained : circular_buffer Nat :=
  runC emptyCB [.pushB 1, .pushB 2, .pushB 3, .pushB 4, .popB, .popB, .popB, .popB]

/-- Concrete container `[1, 2]` with `sz = 2`, `cap = 4`, `ind_end = 2`:
the next push needs no growth. -/
def exTwo : circular_buffer Nat :=
  runC emptyCB [.pushB 1, .pushB 2]

/-- The well-formedness invariant of reachable container states.
`cap_min` is an auxiliary strengthening (every allocation the container ever
performs has size 4, `2*cap ≥ 8` or `2*sz ≥ 6`) needed to make the invariant
inductive for `push_front`'s `reserve(sz * 2)`. -/
structure WF (b : circular_buffer α) : Prop where
  data_len : b.data.length = b.cap
  size_lt : 0 < b.cap → b.sz < b.cap
  cap_zero : b.cap = 0 → b.sz = 0 ∧ b.ind_begin = 0 ∧ b.ind_end = 0
  begin_lt : 0 < b.cap → b.ind_begin < b.cap
  end_eq : b.ind_end = (b.ind_begin + b.sz) % b.cap
  cap_min : b.cap = 0 ∨ 4 ≤ b.cap

theorem wf_empty : WF (emptyCB (α := α)) := by
  constructor <;> simp [emptyCB]

/-! ### Basic facts about the abstraction and ring arithmetic -/

theorem toList_length (b : circular_buffer α) : b.toList.length = b.sz := by
  simp [toList]

theorem mod_off_inj {c a i j : Nat} (hi : i < c) (hj : j < c)
    (h : (a + i) % c = (a + j) % c) : i = j := by
  have h2 : i ≡ j [MOD c] := Nat.ModEq.add_left_cancel' a h
  have h3 : i % c = j % c := h2
  rwa [Nat.mod_eq_of_lt hi, Nat.mod_eq_of_lt hj] at h3

theorem getD_set_self {l : List α} {i : Nat} (h : i < l.length) (v d : α) :
    (l.set i v).getD i d = v := by
  simp [List.getD_eq_getElem?_getD, List.getElem?_set_self, h]

theorem getD_set_ne {l : List α} {i j : Nat} (h : i ≠ j) (v d : α) :
    (l.set i v).getD j d = l.getD j d := by
  simp [List.getD_eq_getElem?_getD, List.getElem?_set_ne h]

theorem toList_getElem? (b : circular_buffer α) {i : Nat} (h : i < b.sz) :
    b.toList[i]? = some (b.data.getD ((b.ind_begin + i) % b.cap) default) := by
  simp [toList, List.getElem?_range, h]

theorem toList_getD (b : circular_buffer α) {i : Nat} (h : i < b.sz) (d : α) :
    b.toList.getD i d = b.data.getD ((b.ind_begin + i) % b.cap) default := by
  simp [List.getD_eq_getElem?_getD, toList_getElem? b h]

/-- `operator[]` is exactly lookup in the logical contents. -/
theorem index_eq_toList (b : circular_buffer α) (i : Nat) :
    b.index i = b.toList[i]? := by
  by_cases h : i < b.sz
  · rw [index, if_pos h, toList_getElem? b h]
  · rw [index, if_neg h, List.getElem?_eq_none]
    rw [toList_length]
    omega

/-! ### `reserve`, the growth steps, and the push cores -/

theorem reserve_spec (b : circular_buffer α) (n : Nat) (hwf : WF b) (h : b.sz < n)
    (h4 : 4 ≤ n) :
    WF (b.reserve n) ∧ (b.reserve n).toList = b.toList ∧ (b.reserve n).sz = b.sz ∧
      (b.reserve n).cap = n := by
  have hn : ¬ n ≤ b.sz := by omega
  rw [reserve, if_neg hn]
  refine ⟨⟨?_, ?_, ?_, ?_, ?_, ?_⟩, ?_, rfl, rfl⟩
  · simp [toList_length]
    omega
  · intro _
    exact h
  · intro hc
    exact absurd hc (show n ≠ 0 by omega)
  · intro _
    show 0 < n
    omega
  · simp [Nat.mod_eq_of_lt h]
  · right
    exact h4
  · show (List.range b.sz).map _ = b.toList
    conv_rhs => rw [toList]
    apply List.map_congr_left
    intro i hi
    rw [List.mem_range] at hi
    have hlt : i < n := by omega
    have hlen : i < b.toList.length := by rw [toList_length]; exact hi
    rw [Nat.zero_add, Nat.mod_eq_of_lt hlt]
    rw [List.getD_eq_getElem?_getD, List.getElem?_append, if_pos hlen,
      ← List.getD_eq_getElem?_getD, toList_getD b hi]

theorem growBack_spec (b : circular_buffer α) (hwf : WF b) :
    WF b.growBack ∧ b.growBack.toList = b.toList ∧ b.growBack.sz = b.sz ∧
      b.growBack.sz + 1 < b.growBack.cap := by
  rw [growBack]
  by_cases h0 : b.sz = 0
  · rw [if_pos h0]
    have hr := reserve_spec b 4 hwf (by omega) (by omega)
    refine ⟨hr.1, hr.2.1, hr.2.2.1, ?_⟩
    omega
  · rw [if_neg h0]
    have hcap : 0 < b.cap := by
      rcases Nat.eq_zero_or_pos b.cap with h | h
      · exact absurd (hwf.cap_zero h).1 h0
      · exact h
    have hc4 : 4 ≤ b.cap := by rcases hwf.cap_min with h | h <;> omega
    by_cases h1 : b.sz = b.cap - 1
    · rw [if_pos h1]
      have hr := reserve_spec b (b.cap * 2) hwf (by omega) (by omega)
      refine ⟨hr.1, hr.2.1, hr.2.2.1, ?_⟩
      omega
    · rw [if_neg h1]
      have := hwf.size_lt hcap
      exact ⟨hwf, rfl, rfl, by omega⟩

theorem growFront_spec (b : circular_buffer α) (hwf : WF b) :
    WF b.growFront ∧ b.growFront.toList = b.toList ∧ b.growFront.sz = b.sz ∧
      b.growFront.sz + 1 < b.growFront.cap := by
  rw [growFront]
  by_cases h0 : b.sz = 0
  · rw [if_pos h0]
    have hr := reserve_spec b 4 hwf (by omega) (by omega)
    refine ⟨hr.1, hr.2.1, hr.2.2.1, ?_⟩
    omega
  · rw [if_neg h0]
    have hcap : 0 < b.cap := by
      rcases Nat.eq_zero_or_pos b.cap with h | h
      · exact absurd (hwf.cap_zero h).1 h0
      · exact h
    have hc4 : 4 ≤ b.cap := by rcases hwf.cap_min with h | h <;> omega
    by_cases h1 : b.sz = b.cap - 1
    · rw [if_pos h1]
      have hsz3 : 3 ≤ b.sz := by omega
      have hr := reserve_spec b (b.sz * 2) hwf (by omega) (by omega)
      refine ⟨hr.1, hr.2.1, hr.2.2.1, ?_⟩
      omega
    · rw [if_neg h1]
      have := hwf.size_lt hcap
      exact ⟨hwf, rfl, rfl, by omega⟩

theorem pbCore_spec (g : circular_buffer α) (v : α) (hwf : WF g)
    (hroom : g.sz + 1 < g.cap) :
    WF (pbCore g v) ∧ (pbCore g v).toList = g.toList ++ [v] := by
  have hcap : 0 < g.cap := by omega
  have hsz := hwf.size_lt hcap
  have hend : g.ind_end < g.cap := by
    rw [hwf.end_eq]
    exact Nat.mod_lt _ hcap
  have hendlen : g.ind_end < g.data.length := by rw [hwf.data_len]; exact hend
  constructor
  · refine ⟨?_, ?_, ?_, ?_, ?_, ?_⟩
    · simp [pbCore, hwf.data_len]
    · intro _
      simpa [pbCore] using hroom
    · intro h
      exact absurd h (show g.cap ≠ 0 by omega)
    · intro h
      simpa [pbCore] using hwf.begin_lt hcap
    · show (g.ind_end + 1) % g.cap = (g.ind_begin + (g.sz + 1)) % g.cap
      rw [hwf.end_eq, Nat.mod_add_mod]
      have harith : g.ind_begin + g.sz + 1 = g.ind_begin + (g.sz + 1) := by omega
      rw [harith]
    · rcases hwf.cap_min with h | h
      · omega
      · right
        simpa [pbCore] using h
  · show (List.range (g.sz + 1)).map _ = g.toList ++ [v]
    rw [List.range_succ, List.map_append, List.map_singleton]
    congr 1
    · conv_rhs => rw [toList]
      apply List.map_congr_left
      intro i hi
      rw [List.mem_range] at hi
      have hne : (g.ind_begin + i) % g.cap ≠ g.ind_end := by
        rw [hwf.end_eq]
        intro hcontra
        have := mod_off_inj (c := g.cap) (a := g.ind_begin) (by omega) hsz hcontra
        omega
      show (g.data.set g.ind_end v).getD ((g.ind_begin + i) % g.cap) default =
        g.data.getD ((g.ind_begin + i) % g.cap) default
      rw [getD_set_ne (fun hcontra => hne hcontra.symm)]
    · have hv : (g.data.set g.ind_end v).getD ((g.ind_begin + g.sz) % g.cap) default = v := by
        rw [← hwf.end_eq]
        exact getD_set_self hendlen v default
      exact congrArg (fun x => [x]) hv

theorem pfCore_spec (g : circular_buffer α) (v : α) (hwf : WF g)
    (hroom : g.sz + 1 < g.cap) :
    WF (pfCore g v) ∧ (pfCore g v).toList = v :: g.toList := by
  have hcap : 0 < g.cap := by omega
  have hsz := hwf.size_lt hcap
  have hbg := hwf.begin_lt hcap
  set nb := (g.ind_begin + g.cap - 1) % g.cap with hnb
  have hnblt : nb < g.cap := Nat.mod_lt _ hcap
  have hnblen : nb < g.data.length := by rw [hwf.data_len]; exact hnblt
  have hshift : ∀ k, (nb + (k + 1)) % g.cap = (g.ind_begin + k) % g.cap := by
    intro k
    rw [hnb, Nat.mod_add_mod]
    have harith : g.ind_begin + g.cap - 1 + (k + 1) = g.ind_begin + k + g.cap := by omega
    rw [harith, Nat.add_mod_right]
  constructor
  · refine ⟨?_, ?_, ?_, ?_, ?_, ?_⟩
    · simp [pfCore, hwf.data_len]
    · intro _
      simpa [pfCore] using hroom
    · intro h
      exact absurd h (show g.cap ≠ 0 by omega)
    · intro h
      simpa [pfCore] using hnblt
    · show g.ind_end = (nb + (g.sz + 1)) % g.cap
      rw [hshift g.sz, hwf.end_eq]
    · rcases hwf.cap_min with h | h
      · omega
      · right
        simpa [pfCore] using h
  · show (List.range (g.sz + 1)).map _ = v :: g.toList
    rw [List.range_succ_eq_map, List.map_cons, List.map_map]
    congr 1
    · show (g.data.set nb v).getD ((nb + 0) % g.cap) default = v
      rw [Nat.add_zero, Nat.mod_eq_of_lt hnblt]
      exact getD_set_self hnblen v default
    · conv_rhs => rw [toList]
      apply List.map_congr_left
      intro i hi
      rw [List.mem_range] at hi
      show (g.data.set nb v).getD ((nb + (i + 1)) % g.cap) default = _
      have hne : (nb + (i + 1)) % g.cap ≠ nb := by
        intro hcontra
        have hnb0 : (nb + 0) % g.cap = nb := by
          rw [Nat.add_zero, Nat.mod_eq_of_lt hnblt]
        have h2 : (nb + (i + 1)) % g.cap = (nb + 0) % g.cap := by
          rw [hnb0]
          exact hcontra
        have := mod_off_inj (c := g.cap) (a := nb) (i := i + 1) (j := 0)
          (by omega) (by omega) h2
        omega
      rw [getD_set_ne hne.symm, hshift i]

theorem push_back_spec (b : circular_buffer α) (v : α) (hwf : WF b) :
    WF (b.push_back v) ∧ (b.push_back v).toList = b.toList ++ [v] := by
  obtain ⟨hg, htl, _, hroom⟩ := growBack_spec b hwf
  obtain ⟨h1, h2⟩ := pbCore_spec b.growBack v hg hroom
  exact ⟨h1, by rw [push_back, h2, htl]⟩

theorem push_front_spec (b : circular_buffer α) (v : α) (hwf : WF b) :
    WF (b.push_front v) ∧ (b.push_front v).toList = v :: b.toList := by
  obtain ⟨hg, htl, _, hroom⟩ := growFront_spec b hwf
  obtain ⟨h1, h2⟩ := pfCore_spec b.growFront v hg hroom
  exact ⟨h1, by rw [push_front, h2, htl]⟩

/-! ### The pops -/

theorem pop_back_spec (b : circular_buffer α) (hwf : WF b) (h : b.sz ≠ 0) :
    ∃ b', b.pop_back = some b' ∧ WF b' ∧ b'.toList = b.toList.dropLast := by
  rw [pop_back, if_neg h]
  refine ⟨_, rfl, ?_, ?_⟩
  · have hcap : 0 < b.cap := by
      rcases Nat.eq_zero_or_pos b.cap with hc | hc
      · exact absurd (hwf.cap_zero hc).1 h
      · exact hc
    refine ⟨hwf.data_len, ?_, ?_, ?_, ?_, hwf.cap_min⟩
    · intro _
      show b.sz - 1 < b.cap
      have := hwf.size_lt hcap
      omega
    · intro hc
      exact absurd hc (show b.cap ≠ 0 by omega)
    · intro _
      exact hwf.begin_lt hcap
    · show (b.ind_end + b.cap - 1) % b.cap = (b.ind_begin + (b.sz - 1)) % b.cap
      rw [hwf.end_eq]
      have harith : (b.ind_begin + b.sz) % b.cap + b.cap - 1 =
          (b.ind_begin + b.sz) % b.cap + (b.cap - 1) := by omega
      rw [harith, Nat.mod_add_mod]
      have harith2 : b.ind_begin + b.sz + (b.cap - 1) =
          b.ind_begin + (b.sz - 1) + b.cap := by omega
      rw [harith2, Nat.add_mod_right]
  · show (List.range (b.sz - 1)).map _ = b.toList.dropLast
    conv_rhs => rw [toList]
    have hsz : b.sz = (b.sz - 1) + 1 := by omega
    rw [hsz, List.range_succ, List.map_append, List.map_singleton, List.dropLast_concat]
    rfl

theorem pop_front_spec (b : circular_buffer α) (hwf : WF b) (h : b.sz ≠ 0) :
    ∃ b', b.pop_front = some b' ∧ WF b' ∧ b'.toList = b.toList.tail := by
  rw [pop_front, if_neg h]
  have hcap : 0 < b.cap := by
    rcases Nat.eq_zero_or_pos b.cap with hc | hc
    · exact absurd (hwf.cap_zero hc).1 h
    · exact hc
  refine ⟨_, rfl, ?_, ?_⟩
  · refine ⟨hwf.data_len, ?_, ?_, ?_, ?_, hwf.cap_min⟩
    · intro _
      show b.sz - 1 < b.cap
      have := hwf.size_lt hcap
      omega
    · intro hc
      exact absurd hc (show b.cap ≠ 0 by omega)
    · intro _
      exact Nat.mod_lt _ hcap
    · show b.ind_end = ((b.ind_begin + 1) % b.cap + (b.sz - 1)) % b.cap
      rw [Nat.mod_add_mod, hwf.end_eq]
      have harith : b.ind_begin + 1 + (b.sz - 1) = b.ind_begin + b.sz := by omega
      rw [harith]
  · show (List.range (b.sz - 1)).map _ = b.toList.tail
    conv_rhs => rw [toList]
    have hsz : b.sz = (b.sz - 1) + 1 := by omega
    rw [hsz, List.range_succ_eq_map, List.map_cons, List.tail_cons, List.map_map]
    apply List.map_congr_left
    intro i hi
    show b.data.getD (((b.ind_begin + 1) % b.cap + i) % b.cap) default = _
    rw [Nat.mod_add_mod]
    have harith : b.ind_begin + 1 + i = b.ind_begin + (i + 1) := by omega
    rw [harith]
    rfl

/-! ### The operation-sequence simulation (container vs. plain list model) -/

theorem stepC_sim (b : circular_buffer α) (op : Op α) (hwf : WF b)
    (hlegal : op.isPop = true → b.sz ≠ 0) :
    WF (stepC b op) ∧ (stepC b op).toList = stepL b.toList op := by
  cases op with
  | pushB v => exact push_back_spec b v hwf
  | pushF v => exact push_front_spec b v hwf
  | popB =>
    obtain ⟨b', hb', hwf', htl⟩ := pop_back_spec b hwf (hlegal rfl)
    rw [stepC, stepL, hb']
    exact ⟨hwf', htl⟩
  | popF =>
    obtain ⟨b', hb', hwf', htl⟩ := pop_front_spec b hwf (hlegal rfl)
    rw [stepC, stepL, hb']
    exact ⟨hwf', htl⟩

theorem runC_sim (ops : List (Op α)) :
    ∀ b : circular_buffer α, WF b → legalFrom b ops = true →
      WF (runC b ops) ∧ (runC b ops).toList = runL b.toList ops := by
  induction ops with
  | nil => exact fun b hwf _ => ⟨hwf, rfl⟩
  | cons op rest ih =>
    intro b hwf hlegal
    rw [legalFrom, Bool.and_eq_true] at hlegal
    have hpop : op.isPop = true → b.sz ≠ 0 := by
      intro hp
      have := hlegal.1
      rw [hp] at this
      simpa using this
    obtain ⟨hwf1, htl1⟩ := stepC_sim b op hwf hpop
    have h2 := ih (stepC b op) hwf1 hlegal.2
    rw [runC, List.foldl_cons, runL, List.foldl_cons]
    rw [← htl1]
    exact h2

/-! ### Length preservation and generation facts for the insert/erase loops -/

theorem swapAt_length (d : List α) (i j : Nat) : (swapAt d i j).length = d.length := by
  simp [swapAt]

theorem insFrontLoop_length :
    ∀ (fuel : Nat) (d : List α) (it1 it2 pos : basic_iterator) (d' : List α)
      (it' : basic_iterator), insFrontLoop fuel d it1 it2 pos = some (d', it') →
      d'.length = d.length := by
  intro fuel
  induction fuel with
  | zero => intro d it1 it2 pos d' it' h; exact absurd h (by simp [insFrontLoop])
  | succ n ih =>
    intro d it1 it2 pos d' it' h
    rw [insFrontLoop] at h
    by_cases hc : iterEq it2 pos
    · rw [if_pos hc] at h
      cases h
      rfl
    · rw [if_neg hc] at h
      have := ih _ _ _ _ _ _ h
      rw [this, swapAt_length]

theorem insBackLoop_length :
    ∀ (fuel : Nat) (d : List α) (it1 it2 pos : basic_iterator) (d' : List α)
      (it' : basic_iterator), insBackLoop fuel d it1 it2 pos = some (d', it') →
      d'.length = d.length := by
  intro fuel
  induction fuel with
  | zero => intro d it1 it2 pos d' it' h; exact absurd h (by simp [insBackLoop])
  | succ n ih =>
    intro d it1 it2 pos d' it' h
    rw [insBackLoop] at h
    by_cases hc : iterEq it2 pos
    · rw [if_pos hc] at h
      cases h
      rfl
    · rw [if_neg hc] at h
      have := ih _ _ _ _ _ _ h
      rw [this, swapAt_length]

theorem eraseFrontLoop_length :
    ∀ (fuel : Nat) (d : List α) (it2 bIt : basic_iterator) (d' : List α),
      eraseFrontLoop fuel d it2 bIt = some d' → d'.length = d.length := by
  intro fuel
  induction fuel with
  | zero => intro d it2 bIt d' h; exact absurd h (by simp [eraseFrontLoop])
  | succ n ih =>
    intro d it2 bIt d' h
    rw [eraseFrontLoop] at h
    by_cases hc : iterEq it2 bIt
    · rw [if_pos hc] at h
      cases h
      rfl
    · rw [if_neg hc] at h
      have := ih _ _ _ _ h
      rw [this, swapAt_length]

theorem eraseBackLoop_length :
    ∀ (fuel : Nat) (d : List α) (it1 it2 eIt : basic_iterator) (d' : List α),
      eraseBackLoop fuel d it1 it2 eIt = some d' → d'.length = d.length := by
  intro fuel
  induction fuel with
  | zero => intro d it1 it2 eIt d' h; exact absurd h (by simp [eraseBackLoop])
  | succ n ih =>
    intro d it1 it2 eIt d' h
    rw [eraseBackLoop] at h
    by_cases hc : iterEq it2 eIt
    · rw [if_pos hc] at h
      cases h
      rfl
    · rw [if_neg hc] at h
      have := ih _ _ _ _ _ h
      rw [this, swapAt_length]

/-- Replacing the storage contents with a block of the same length preserves
well-formedness (no other field mentions the data). -/
theorem wf_set_data {b : circular_buffer α} {d : List α} (hwf : WF b)
    (h : d.length = b.data.length) : WF { b with data := d } := by
  refine ⟨?_, hwf.size_lt, hwf.cap_zero, hwf.begin_lt, hwf.end_eq, hwf.cap_min⟩
  show d.length = b.cap
  rw [h, hwf.data_len]

theorem pop_back_eq {b b' : circular_buffer α} (h : b.pop_back = some b') :
    b.sz ≠ 0 ∧ b' = { b with sz := b.sz - 1, ind_end := (b.ind_end + b.cap - 1) % b.cap } := by
  rw [pop_back] at h
  split at h
  · exact absurd h (by simp)
  · cases h
    exact ⟨by assumption, rfl⟩

theorem pop_front_eq {b b' : circular_buffer α} (h : b.pop_front = some b') :
    b.sz ≠ 0 ∧ b' = { b with sz := b.sz - 1, ind_begin := (b.ind_begin + 1) % b.cap } := by
  rw [pop_front] at h
  split at h
  · exact absurd h (by simp)
  · cases h
    exact ⟨by assumption, rfl⟩

theorem pop_back_wf {b b' : circular_buffer α} (hwf : WF b) (h : b.pop_back = some b') :
    WF b' := by
  obtain ⟨hsz, rfl⟩ := pop_back_eq h
  obtain ⟨b'', hb'', hwf'', _⟩ := pop_back_spec b hwf hsz
  rw [pop_back, if_neg hsz] at hb''
  cases hb''
  exact hwf''

theorem pop_front_wf {b b' : circular_buffer α} (hwf : WF b) (h : b.pop_front = some b') :
    WF b' := by
  obtain ⟨hsz, rfl⟩ := pop_front_eq h
  obtain ⟨b'', hb'', hwf'', _⟩ := pop_front_spec b hwf hsz
  rw [pop_front, if_neg hsz] at hb''
  cases hb''
  exact hwf''

/-- Every successful `insert` result is one of the two push results with its
storage contents rearranged in place (same length). -/
theorem insertF_cases {fuel : Nat} {b : circular_buffer α} {pos : basic_iterator} {v : α}
    {b' : circular_buffer α} {it : basic_iterator}
    (h : insertF fuel b pos v = some (b', it)) :
    (∃ d, b' = { b.push_front v with data := d } ∧
      d.length = (b.push_front v).data.length) ∨
    (∃ d, b' = { b.push_back v with data := d } ∧
      d.length = (b.push_back v).data.length) := by
  rw [insertF] at h
  split at h
  · cases h
    exact Or.inl ⟨(b.push_front v).data, rfl, rfl⟩
  · split at h
    · cases h
      exact Or.inr ⟨(b.push_back v).data, rfl, rfl⟩
    · split at h
      · split at h
        · rename_i d it0 hloop
          cases h
          exact Or.inl ⟨d, rfl, insFrontLoop_length _ _ _ _ _ _ _ hloop⟩
        · exact absurd h (by simp)
      · split at h
        · rename_i d it0 hloop
          cases h
          exact Or.inr ⟨d, rfl, insBackLoop_length _ _ _ _ _ _ _ hloop⟩
        · exact absurd h (by simp)

theorem insertF_wf {fuel : Nat} {b : circular_buffer α} {pos : basic_iterator} {v : α}
    {b' : circular_buffer α} {it : basic_iterator} (hwf : WF b)
    (h : insertF fuel b pos v = some (b', it)) : WF b' := by
  rcases insertF_cases h with ⟨d, rfl, hlen⟩ | ⟨d, rfl, hlen⟩
  · exact wf_set_data (push_front_spec b v hwf).1 hlen
  · exact wf_set_data (push_back_spec b v hwf).1 hlen

/-- Every successful `erase` result is a pop of the container with its storage
contents rearranged in place (same length). -/
theorem eraseF_cases {fuel : Nat} {b : circular_buffer α} {pos : basic_iterator}
    {b' : circular_buffer α} {it : basic_iterator}
    (h : eraseF fuel b pos = .ok (b', it)) :
    (∃ d, d.length = b.data.length ∧ pop_front { b with data := d } = some b') ∨
    (∃ d, d.length = b.data.length ∧ pop_back { b with data := d } = some b') := by
  rw [eraseF] at h
  split at h
  · exact absurd h (by simp)
  · split at h
    · split at h
      · rename_i b'' hpop
        cases h
        exact Or.inl ⟨b.data, rfl, hpop⟩
      · exact absurd h (by simp)
    · split at h
      · split at h
        · rename_i b'' hpop
          cases h
          exact Or.inr ⟨b.data, rfl, hpop⟩
        · exact absurd h (by simp)
      · split at h
        · cases hloop : eraseFrontLoop fuel b.data
              ⟨(pos.get_pos + b.ind_begin) % b.cap, b.cap, b.gen, b.ind_begin⟩ b.beginIt with
          | none =>
            simp only [hloop] at h
            exact absurd h (by simp)
          | some d =>
            simp only [hloop] at h
            cases hpop : pop_front { b with data := d } with
            | none =>
              simp only [hpop] at h
              exact absurd h (by simp)
            | some b2 =>
              simp only [hpop, Except.ok.injEq, Prod.mk.injEq] at h
              exact Or.inl ⟨d, eraseFrontLoop_length _ _ _ _ _ hloop, h.1 ▸ hpop⟩
        · cases hloop : eraseBackLoop fuel b.data
              ⟨(pos.get_pos + b.ind_begin) % b.cap, b.cap, b.gen, b.ind_begin⟩
              (incr ⟨(pos.get_pos + b.ind_begin) % b.cap, b.cap, b.gen, b.ind_begin⟩)
              b.endIt with
          | none =>
            simp only [hloop] at h
            exact absurd h (by simp)
          | some d =>
            simp only [hloop] at h
            cases hpop : pop_back { b with data := d } with
            | none =>
              simp only [hpop] at h
              exact absurd h (by simp)
            | some b2 =>
              simp only [hpop, Except.ok.injEq, Prod.mk.injEq] at h
              exact Or.inr ⟨d, eraseBackLoop_length _ _ _ _ _ _ hloop, h.1 ▸ hpop⟩

theorem eraseF_wf {fuel : Nat} {b : circular_buffer α} {pos : basic_iterator}
    {b' : circular_buffer α} {it : basic_iterator} (hwf : WF b)
    (h : eraseF fuel b pos = .ok (b', it)) : WF b' := by
  rcases eraseF_cases h with ⟨d, hlen, hpop⟩ | ⟨d, hlen, hpop⟩
  · exact pop_front_wf (wf_set_data hwf hlen) hpop
  · exact pop_back_wf (wf_set_data hwf hlen) hpop

theorem eraseF_cap {fuel : Nat} {b : circular_buffer α} {pos : basic_iterator}
    {b' : circular_buffer α} {it : basic_iterator}
    (h : eraseF fuel b pos = .ok (b', it)) : b'.cap = b.cap := by
  rcases eraseF_cases h with ⟨d, hlen, hpop⟩ | ⟨d, hlen, hpop⟩
  · obtain ⟨_, rfl⟩ := pop_front_eq hpop
    rfl
  · obtain ⟨_, rfl⟩ := pop_back_eq hpop
    rfl

theorem foldl_push_back_wf (l : List α) :
    ∀ b0 : circular_buffer α, WF b0 → WF (l.foldl push_back b0) := by
  induction l with
  | nil => exact fun b0 h => h
  | cons x t ih => exact fun b0 h => ih _ (push_back_spec b0 x h).1

theorem copyCB_wf (b : circular_buffer α) : WF b.copyCB :=
  foldl_push_back_wf _ _ wf_empty

theorem clear_eq (b : circular_buffer α) : b.clear = emptyCB := rfl

theorem wf_exFull : WF exFull :=
  (runC_sim _ emptyCB wf_empty (by decide)).1

theorem wf_exDrained : WF exDrained :=
  (runC_sim _ emptyCB wf_empty (by decide)).1

theorem wf_exTwo : WF exTwo :=
  (runC_sim _ emptyCB wf_empty (by decide)).1

/-! ### The stale-iterator loop never terminates -/

/-- The front-half insert loop never exits when the target iterator `pos`
refers to a different storage generation (a different `data` pointer) than the
running iterators: `operator==` compares the `data` pointers, so the exit
comparison is always false, for any amount of fuel. -/
theorem insFrontLoop_gen_ne {p : basic_iterator} :
    ∀ (fuel : Nat) (d : List α) (it1 it2 : basic_iterator), it2.gen ≠ p.gen →
      insFrontLoop fuel d it1 it2 p = none := by
  intro fuel
  induction fuel with
  | zero => intro d it1 it2 _; rfl
  | succ n ih =>
    intro d it1 it2 hg
    rw [insFrontLoop]
    have hne : iterEq it2 p = false := by
      rw [iterEq]
      simp only [Bool.and_eq_false_iff, beq_eq_false_iff_ne, ne_eq]
      right
      exact hg
    rw [hne]
    simp only [Bool.false_eq_true, if_false]
    exact ih _ _ _ hg

/-! ### Trace bookkeeping for the instrumented reallocation -/

theorem constructedSlots_append (l1 l2 : List Ev) :
    constructedSlots (l1 ++ l2) = constructedSlots l1 ++ constructedSlots l2 := by
  induction l1 with
  | nil => rfl
  | cons e t ih => cases e <;> simp [constructedSlots, ih]

theorem destroyedSlots_append (l1 l2 : List Ev) :
    destroyedSlots (l1 ++ l2) = destroyedSlots l1 ++ destroyedSlots l2 := by
  induction l1 with
  | nil => rfl
  | cons e t ih => cases e <;> simp [destroyedSlots, ih]

theorem allocBlks_append (l1 l2 : List Ev) :
    allocBlks (l1 ++ l2) = allocBlks l1 ++ allocBlks l2 := by
  induction l1 with
  | nil => rfl
  | cons e t ih => cases e <;> simp [allocBlks, ih]

theorem freeBlks_append (l1 l2 : List Ev) :
    freeBlks (l1 ++ l2) = freeBlks l1 ++ freeBlks l2 := by
  induction l1 with
  | nil => rfl
  | cons e t ih => cases e <;> simp [freeBlks, ih]

theorem constructedSlots_map_construct (nb : Nat) (l : List Nat) :
    constructedSlots (l.map (Ev.construct nb)) = l.map (fun i => (nb, i)) := by
  induction l with
  | nil => rfl
  | cons x t ih => simp [constructedSlots, ih]

theorem destroyedSlots_map_construct (nb : Nat) (l : List Nat) :
    destroyedSlots (l.map (Ev.construct nb)) = [] := by
  induction l with
  | nil => rfl
  | cons x t ih => simp [destroyedSlots, ih]

theorem allocBlks_map_construct (nb : Nat) (l : List Nat) :
    allocBlks (l.map (Ev.construct nb)) = [] := by
  induction l with
  | nil => rfl
  | cons x t ih => simp [allocBlks, ih]

theorem freeBlks_map_construct (nb : Nat) (l : List Nat) :
    freeBlks (l.map (Ev.construct nb)) = [] := by
  induction l with
  | nil => rfl
  | cons x t ih => simp [freeBlks, ih]

theorem constructedSlots_map_destroy (nb : Nat) (l : List Nat) :
    constructedSlots (l.map (Ev.destroy nb)) = [] := by
  induction l with
  | nil => rfl
  | cons x t ih => simp [constructedSlots, ih]

theorem destroyedSlots_map_destroy (nb : Nat) (l : List Nat) :
    destroyedSlots (l.map (Ev.destroy nb)) = l.map (fun i => (nb, i)) := by
  induction l with
  | nil => rfl
  | cons x t ih => simp [destroyedSlots, ih]

theorem allocBlks_map_destroy (nb : Nat) (l : List Nat) :
    allocBlks (l.map (Ev.destroy nb)) = [] := by
  induction l with
  | nil => rfl
  | cons x t ih => simp [allocBlks, ih]

theorem freeBlks_map_destroy (nb : Nat) (l : List Nat) :
    freeBlks (l.map (Ev.destroy nb)) = [] := by
  induction l with
  | nil => rfl
  | cons x t ih => simp [freeBlks, ih]

/-- The failure branches of the instrumented `reserve` leave the container
untouched and produce a balanced trace. -/
theorem reserveT_fail {b : circular_buffer α} {n ob nb : Nat} {allocOk : Bool}
    {copyF : α → Option α} {b' : circular_buffer α} {tr : List Ev}
    (h : reserveT b n ob nb allocOk copyF = (false, b', tr)) :
    b' = b ∧ BalancedTrace tr := by
  rw [reserveT] at h
  split at h
  · exact absurd h (by simp)
  · split at h
    · cases h
      exact ⟨rfl, rfl, rfl⟩
    · split at h
      · rename_i k heq
        cases h
        refine ⟨rfl, ?_, ?_⟩
        · show destroyedSlots _ = (constructedSlots _).reverse
          rw [show
            (Ev.allocNew nb n ::
              ((List.range k).map (Ev.construct nb) ++
               (List.range k).reverse.map (Ev.destroy nb) ++ [Ev.free nb])) =
            ([Ev.allocNew nb n] ++ ((List.range k).map (Ev.construct nb) ++
               (List.range k).reverse.map (Ev.destroy nb) ++ [Ev.free nb])) from rfl]
          rw [destroyedSlots_append, destroyedSlots_append, destroyedSlots_append,
            constructedSlots_append, constructedSlots_append, constructedSlots_append,
            destroyedSlots_map_construct, destroyedSlots_map_destroy,
            constructedSlots_map_construct, constructedSlots_map_destroy]
          simp [destroyedSlots, constructedSlots, List.map_reverse]
        · show freeBlks _ = allocBlks _
          rw [show
            (Ev.allocNew nb n ::
              ((List.range k).map (Ev.construct nb) ++
               (List.range k).reverse.map (Ev.destroy nb) ++ [Ev.free nb])) =
            ([Ev.allocNew nb n] ++ ((List.range k).map (Ev.construct nb) ++
               (List.range k).reverse.map (Ev.destroy nb) ++ [Ev.free nb])) from rfl]
          rw [freeBlks_append, freeBlks_append, freeBlks_append,
            allocBlks_append, allocBlks_append, allocBlks_append,
            freeBlks_map_construct, freeBlks_map_destroy,
            allocBlks_map_construct, allocBlks_map_destroy]
          simp [freeBlks, allocBlks]
      · exact absurd h (by simp)

/-- A failure of the growth step inside the instrumented `push_back`
propagates with the pre-push state and a balanced trace. -/
theorem push_backT_fail {b : circular_buffer α} {v : α} {ob nb : Nat} {allocOk : Bool}
    {copyF : α → Option α} {b' : circular_buffer α} {tr : List Ev}
    (h : push_backT b v ob nb allocOk copyF = (false, b', tr)) :
    b' = b ∧ BalancedTrace tr := by
  rw [push_backT] at h
  split at h
  · exact absurd h (by simp)
  · rename_i b0 tr0 heq
    cases h
    split at heq
    · exact reserveT_fail heq
    · split at heq
      · exact reserveT_fail heq
      · exact absurd heq (by simp)

/-- As `push_backT_fail`, for `push_front`. -/
theorem push_frontT_fail {b : circular_buffer α} {v : α} {ob nb : Nat} {allocOk : Bool}
    {copyF : α → Option α} {b' : circular_buffer α} {tr : List Ev}
    (h : push_frontT b v ob nb allocOk copyF = (false, b', tr)) :
    b' = b ∧ BalancedTrace tr := by
  rw [push_frontT] at h
  split at h
  · exact absurd h (by simp)
  · rename_i b0 tr0 heq
    cases h
    split at heq
    · exact reserveT_fail heq
    · split at heq
      · exact reserveT_fail heq
      · exact absurd heq (by simp)

theorem wf_inv1 {b : circular_buffer α} (hwf : WF b) : Inv1 b :=
  ⟨hwf.size_lt, fun h => (hwf.cap_zero h).1⟩

theorem push_back_cap_empty (b : circular_buffer α) (v : α) (h : b.sz = 0) :
    (b.push_back v).cap = 4 := by
  show b.growBack.cap = 4
  rw [growBack, if_pos h, reserve, if_neg (by omega)]

theorem push_front_cap_empty (b : circular_buffer α) (v : α) (h : b.sz = 0) :
    (b.push_front v).cap = 4 := by
  show b.growFront.cap = 4
  rw [growFront, if_pos h, reserve, if_neg (by omega)]

theorem push_back_cap_ge (b : circular_buffer α) (v : α) (hwf : WF b) (h : b.sz ≠ 0) :
    b.cap ≤ (b.push_back v).cap := by
  show b.cap ≤ b.growBack.cap
  rw [growBack, if_neg h]
  have hcap : 0 < b.cap := by
    rcases Nat.eq_zero_or_pos b.cap with hc | hc
    · exact absurd (hwf.cap_zero hc).1 h
    · exact hc
  by_cases h1 : b.sz = b.cap - 1
  · rw [if_pos h1, reserve, if_neg (by omega)]
    show b.cap ≤ b.cap * 2
    omega
  · rw [if_neg h1]

theorem push_front_cap_ge (b : circular_buffer α) (v : α) (hwf : WF b) (h : b.sz ≠ 0) :
    b.cap ≤ (b.push_front v).cap := by
  show b.cap ≤ b.growFront.cap
  rw [growFront, if_neg h]
  have hcap : 0 < b.cap := by
    rcases Nat.eq_zero_or_pos b.cap with hc | hc
    · exact absurd (hwf.cap_zero hc).1 h
    · exact hc
  have hc4 : 4 ≤ b.cap := by rcases hwf.cap_min with hc | hc <;> omega
  by_cases h1 : b.sz = b.cap - 1
  · rw [if_pos h1, reserve, if_neg (by omega)]
    show b.cap ≤ b.sz * 2
    omega
  · rw [if_neg h1]

/-- The source's `get_pos`, cast to `Int`, is the spec's
`(physical_index - begin_index + capacity) mod capacity`. -/
theorem get_pos_intCast (it : basic_iterator) (hc : 0 < it.cap)
    (hb : it.ind_begin ≤ it.cap) : (it.get_pos : Int) = logicalPosZ it := by
  rw [get_pos, logicalPosZ]
  have h1 : it.ind_begin ≤ it.ind + it.cap := by omega
  push_cast [Nat.cast_sub h1]
  congr 1
  ring

/-! ### The claims -/

/-- C1: for every finite sequence of `push_back`/`push_front`/`pop_back`/
`pop_front` (pops applied only to a non-empty container), the container
behaves like the plain double-ended list model running the same sequence:
`size()` equals the model's length and `operator[](i)` returns the model's
`i`-th element for every `i`. -/
theorem c1_deque_refinement (ops : List (Op α))
    (h : legalFrom (emptyCB (α := α)) ops = true) :
    (runC (emptyCB (α := α)) ops).size = (runL [] ops).length ∧
    ∀ i : Nat, (runC (emptyCB (α := α)) ops).index i = (runL ([] : List α) ops)[i]? := by
  obtain ⟨hwf, htl⟩ := runC_sim ops emptyCB wf_empty h
  have htl' : (runC (emptyCB (α := α)) ops).toList = runL [] ops := htl
  constructor
  · show (runC (emptyCB (α := α)) ops).sz = (runL [] ops).length
    rw [← toList_length, htl']
  · intro i
    rw [index_eq_toList, htl']

theorem c1_deque_refinement_witness :
    legalFrom (emptyCB (α := Nat)) [Op.pushB 1, Op.pushF 0, Op.pushB 2, Op.popF] = true ∧
    (runC (emptyCB (α := Nat)) [Op.pushB 1, Op.pushF 0, Op.pushB 2, Op.popF]).index 0 =
      (runL ([] : List Nat) [Op.pushB 1, Op.pushF 0, Op.pushB 2, Op.popF])[0]? :=
  ⟨by decide,
   (c1_deque_refinement [Op.pushB 1, Op.pushF 0, Op.pushB 2, Op.popF] (by decide)).2 0⟩

/-- C2: every public operation — `push_back`, `push_front`, `pop_back`,
`pop_front`, `insert`, `erase`, `clear`, copy construction (and assignment,
which is copy-and-swap) — preserves invariant 1: `0 ≤ sz < cap` whenever
`cap > 0`, and `sz = 0` when `cap = 0` (the empty, unallocated state). -/
theorem c2_invariant1_preserved (b : circular_buffer α) (v : α) (pos : basic_iterator)
    (fuel : Nat) (hwf : WF b) :
    Inv1 (b.push_back v) ∧ Inv1 (b.push_front v) ∧
    (∀ b', b.pop_back = some b' → Inv1 b') ∧
    (∀ b', b.pop_front = some b' → Inv1 b') ∧
    (∀ b' it, insertF fuel b pos v = some (b', it) → Inv1 b') ∧
    (∀ b' it, eraseF fuel b pos = .ok (b', it) → Inv1 b') ∧
    Inv1 b.clear ∧ Inv1 b.copyCB := by
  refine ⟨wf_inv1 (push_back_spec b v hwf).1, wf_inv1 (push_front_spec b v hwf).1,
    ?_, ?_, ?_, ?_, ?_, wf_inv1 (copyCB_wf b)⟩
  · intro b' h
    exact wf_inv1 (pop_back_wf hwf h)
  · intro b' h
    exact wf_inv1 (pop_front_wf hwf h)
  · intro b' it h
    exact wf_inv1 (insertF_wf hwf h)
  · intro b' it h
    exact wf_inv1 (eraseF_wf hwf h)
  · rw [clear_eq]
    exact wf_inv1 wf_empty

theorem c2_invariant1_preserved_witness :
    Inv1 ((emptyCB (α := Nat)).push_back 5) ∧ Inv1 (clear (emptyCB (α := Nat))) :=
  ⟨(c2_invariant1_preserved emptyCB 5 ⟨0, 0, 0, 0⟩ 0 wf_empty).1,
   (c2_invariant1_preserved emptyCB 5 ⟨0, 0, 0, 0⟩ 0 wf_empty).2.2.2.2.2.2.1⟩

/-- C3 (code-bug exhibit): on the container `[1, 2, 3]` with `sz = 3`,
`cap = 4`, inserting at the valid middle position `begin() + 1` triggers a
growth reallocation inside the delegated `push_front`; the swap-walk then
compares fresh iterators (new `data` pointer) against the stale `pos` (old
pointer), so the exit test `it2 != pos` is always true and the loop never
terminates: `insert` does not return for any number of iterations, so the
insert-then-erase round trip of the claim cannot even start. -/
theorem c3_insert_growth_never_returns :
    ∀ fuel : Nat, insertF fuel exFull posMid 9 = none := by
  intro fuel
  have h1 : iterEq posMid exFull.beginIt = false := by decide
  have h2 : iterEq posMid exFull.endIt = false := by decide
  have h3 : posMid.get_pos ≤ exFull.sz / 2 := by decide
  rw [insertF, h1, h2]
  simp only [Bool.false_eq_true, if_false, if_pos h3]
  have hloop := insFrontLoop_gen_ne (p := posMid) fuel (exFull.push_front 9).data
    (exFull.push_front 9).beginIt (incr (exFull.push_front 9).beginIt) (by decide)
  rw [hloop]

/-- C4 counterexample: after four `push_back`s (capacity 8) and four pops the
container has `sz = 0`, `cap = 8`; the next `push_back` runs `reserve(4)`,
which reallocates down to capacity 4 — the operation shrinks the capacity,
contradicting the claim that every push leaves capacity ≥ its prior value. -/
theorem c4_counterexample : (push_back exDrained 9).cap < exDrained.cap := by decide

/-- C4 (amended): pops and `erase` never change the capacity, and `push_back`,
`push_front` and `insert` leave capacity ≥ its prior value **on a non-empty
container**; on an empty container a push (directly or via `insert`)
reallocates to capacity exactly 4, which shrinks the capacity when the
previous capacity exceeded 4. -/
theorem c4_capacity_amended (b : circular_buffer α) (v : α) (pos : basic_iterator)
    (fuel : Nat) (hwf : WF b) :
    (∀ b', b.pop_back = some b' → b'.cap = b.cap) ∧
    (∀ b', b.pop_front = some b' → b'.cap = b.cap) ∧
    (∀ b' it, eraseF fuel b pos = .ok (b', it) → b'.cap = b.cap) ∧
    (b.sz ≠ 0 → b.cap ≤ (b.push_back v).cap ∧ b.cap ≤ (b.push_front v).cap) ∧
    (b.sz = 0 → (b.push_back v).cap = 4 ∧ (b.push_front v).cap = 4) ∧
    (∀ b' it, insertF fuel b pos v = some (b', it) →
      (b.sz ≠ 0 → b.cap ≤ b'.cap) ∧ (b.sz = 0 → b'.cap = 4)) := by
  refine ⟨?_, ?_, fun b' it h => eraseF_cap h, ?_, ?_, ?_⟩
  · intro b' h
    obtain ⟨_, rfl⟩ := pop_back_eq h
    rfl
  · intro b' h
    obtain ⟨_, rfl⟩ := pop_front_eq h
    rfl
  · intro h
    exact ⟨push_back_cap_ge b v hwf h, push_front_cap_ge b v hwf h⟩
  · intro h
    exact ⟨push_back_cap_empty b v h, push_front_cap_empty b v h⟩
  · intro b' it h
    have hcap : b'.cap = (b.push_front v).cap ∨ b'.cap = (b.push_back v).cap := by
      rcases insertF_cases h with ⟨d, rfl, _⟩ | ⟨d, rfl, _⟩
      · exact Or.inl rfl
      · exact Or.inr rfl
    constructor
    · intro hne
      rcases hcap with hc | hc
      · rw [hc]
        exact push_front_cap_ge b v hwf hne
      · rw [hc]
        exact push_back_cap_ge b v hwf hne
    · intro h0
      rcases hcap with hc | hc
      · rw [hc]
        exact push_front_cap_empty b v h0
      · rw [hc]
        exact push_back_cap_empty b v h0

theorem c4_capacity_amended_witness :
    exTwo.sz ≠ 0 ∧ exTwo.cap ≤ (exTwo.push_back 9).cap :=
  ⟨by decide,
   ((c4_capacity_amended exTwo 9 ⟨0, 0, 0, 0⟩ 0 wf_exTwo).2.2.2.1 (by decide)).1⟩

/-- C5 counterexample: on the container `[1, 2]` (`sz = 2`, `cap = 4`,
`ind_end = 2`, no growth needed) `push_back(9)` constructs the new element at
slot `ind_end = 2`, not at "the slot just past `end_index`"
(`(ind_end + 1) % cap = 3`, which keeps its junk value): the claim's placement
is off by one for `push_back`. -/
theorem c5_counterexample :
    ¬ ((push_back exTwo 9).data.getD
        (((growBack exTwo).ind_end + 1) % (growBack exTwo).cap) default = 9) := by
  decide

/-- C5 (amended): `push_back`/`push_front` on an empty container first
reserve capacity 4; when `sz = cap - 1` (and the container is non-empty)
`push_back` reserves `2 * cap` while `push_front` reserves `2 * sz`; after
any needed growth the new element is constructed **at** slot `end_index`
(`push_back`) or at the slot just before `begin_index` (`push_front`), the
corresponding cursor moves one step mod capacity, and `sz` increments. -/
theorem c5_push_growth_amended (b : circular_buffer α) (v : α) (hwf : WF b) :
    (b.sz = 0 → (b.push_back v).cap = 4 ∧ (b.push_front v).cap = 4) ∧
    (b.sz ≠ 0 → b.sz = b.cap - 1 →
      (b.push_back v).cap = 2 * b.cap ∧ (b.push_front v).cap = 2 * b.sz) ∧
    (b.push_back v).data.getD b.growBack.ind_end default = v ∧
    (b.push_back v).ind_end = (b.growBack.ind_end + 1) % b.growBack.cap ∧
    (b.push_back v).sz = b.sz + 1 ∧
    (b.push_front v).data.getD
      ((b.growFront.ind_begin + b.growFront.cap - 1) % b.growFront.cap) default = v ∧
    (b.push_front v).ind_begin =
      (b.growFront.ind_begin + b.growFront.cap - 1) % b.growFront.cap ∧
    (b.push_front v).sz = b.sz + 1 := by
  obtain ⟨hgb, _, hgbsz, hgbroom⟩ := growBack_spec b hwf
  obtain ⟨hgf, _, hgfsz, hgfroom⟩ := growFront_spec b hwf
  have hendlt : b.growBack.ind_end < b.growBack.data.length := by
    rw [hgb.data_len, hgb.end_eq]
    exact Nat.mod_lt _ (by omega)
  have hnblt : (b.growFront.ind_begin + b.growFront.cap - 1) % b.growFront.cap <
      b.growFront.data.length := by
    rw [hgf.data_len]
    exact Nat.mod_lt _ (by omega)
  refine ⟨?_, ?_, ?_, rfl, ?_, ?_, rfl, ?_⟩
  · intro h
    exact ⟨push_back_cap_empty b v h, push_front_cap_empty b v h⟩
  · intro h0 h1
    have hcap : 0 < b.cap := by
      rcases Nat.eq_zero_or_pos b.cap with hc | hc
      · exact absurd (hwf.cap_zero hc).1 h0
      · exact hc
    have hc4 : 4 ≤ b.cap := by rcases hwf.cap_min with hc | hc <;> omega
    constructor
    · show b.growBack.cap = 2 * b.cap
      rw [growBack, if_neg h0, if_pos h1, reserve, if_neg (by omega)]
      show b.cap * 2 = 2 * b.cap
      ring
    · show b.growFront.cap = 2 * b.sz
      rw [growFront, if_neg h0, if_pos h1, reserve, if_neg (by omega)]
      show b.sz * 2 = 2 * b.sz
      ring
  · show (b.growBack.data.set b.growBack.ind_end v).getD b.growBack.ind_end default = v
    exact getD_set_self hendlt v default
  · show b.growBack.sz + 1 = b.sz + 1
    rw [hgbsz]
  · show (b.growFront.data.set
        ((b.growFront.ind_begin + b.growFront.cap - 1) % b.growFront.cap) v).getD
        ((b.growFront.ind_begin + b.growFront.cap - 1) % b.growFront.cap) default = v
    exact getD_set_self hnblt v default
  · show b.growFront.sz + 1 = b.sz + 1
    rw [hgfsz]

theorem c5_push_growth_amended_witness :
    (emptyCB (α := Nat)).sz = 0 ∧ ((emptyCB (α := Nat)).push_back 7).cap = 4 :=
  ⟨rfl, ((c5_push_growth_amended emptyCB 7 wf_empty).1 rfl).1⟩

/-- C6: if the raw allocation fails, or the copy construction of some element
fails during the migration of a growth reallocation (`reserve` directly, or
the `reserve` triggered inside a push), the failure propagates, the container
is left exactly in its prior state, and the trace is balanced: the
already-constructed prefix of the new block is destroyed (in reverse order)
and every allocated block is released — no leak, no double free. -/
theorem c6_realloc_failure_safe (b : circular_buffer α) (n : Nat) (v : α) (ob nb : Nat)
    (allocOk : Bool) (copyF : α → Option α) :
    (∀ b' tr, reserveT b n ob nb allocOk copyF = (false, b', tr) →
      b' = b ∧ BalancedTrace tr) ∧
    (∀ b' tr, push_backT b v ob nb allocOk copyF = (false, b', tr) →
      b' = b ∧ BalancedTrace tr) ∧
    (∀ b' tr, push_frontT b v ob nb allocOk copyF = (false, b', tr) →
      b' = b ∧ BalancedTrace tr) :=
  ⟨fun _ _ h => reserveT_fail h, fun _ _ h => push_backT_fail h,
   fun _ _ h => push_frontT_fail h⟩

theorem c6_realloc_failure_safe_witness :
    reserveT (emptyCB (α := Nat)) 4 0 1 false (fun x => some x) =
      (false, emptyCB, []) ∧
    ((emptyCB : circular_buffer Nat) = emptyCB ∧ BalancedTrace []) :=
  ⟨by decide,
   (c6_realloc_failure_safe emptyCB 4 7 0 1 false (fun x => some x)).1 emptyCB []
     (by decide)⟩

/-- C7: `front`, `back`, `pop_back`, `pop_front` on an empty container,
`operator[]` with `ind ≥ sz`, and `erase` at a logical position ≥ `sz` all
fail their defensive assertion (modelled as an error result) instead of
returning a value; under the documented preconditions the assertion branches
are unreachable (the operations succeed). -/
theorem c7_defensive_asserts (b : circular_buffer α) (i fuel : Nat)
    (pos : basic_iterator) :
    (b.sz = 0 → b.front = none ∧ b.back = none ∧ b.pop_back = none ∧
      b.pop_front = none) ∧
    (b.sz ≤ i → b.index i = none) ∧
    (b.sz ≤ pos.get_pos → eraseF fuel b pos = .error .assertFail) ∧
    (b.sz ≠ 0 → b.front.isSome ∧ b.back.isSome ∧ b.pop_back.isSome ∧
      b.pop_front.isSome) ∧
    (i < b.sz → (b.index i).isSome) := by
  refine ⟨?_, ?_, ?_, ?_, ?_⟩
  · intro h
    exact ⟨by rw [front, if_pos h], by rw [back, if_pos h], by rw [pop_back, if_pos h],
      by rw [pop_front, if_pos h]⟩
  · intro h
    rw [index, if_neg (by omega)]
  · intro h
    rw [eraseF, if_pos h]
  · intro h
    refine ⟨?_, ?_, ?_, ?_⟩
    · rw [front, if_neg h]
      rfl
    · rw [back, if_neg h]
      rfl
    · rw [pop_back, if_neg h]
      rfl
    · rw [pop_front, if_neg h]
      rfl
  · intro h
    rw [index, if_pos h]
    rfl

theorem c7_defensive_asserts_witness :
    (emptyCB (α := Nat)).sz = 0 ∧ front (emptyCB (α := Nat)) = none :=
  ⟨rfl, ((c7_defensive_asserts (emptyCB (α := Nat)) 0 0 ⟨0, 0, 0, 0⟩).1 rfl).1⟩

/-- C8: for two iterators over the same storage with the same `begin_index`
snapshot (and in-range indices), `a < b` holds exactly when the spec's
`logical_position` of `a` is below that of `b`, and `a - b` equals the
difference of the logical positions, where `logical_position(physical) =
(physical - begin_index + capacity) mod capacity`; the source's `get_pos` is
exactly that logical position, so ordering and distance are never raw
physical-index comparisons. -/
theorem c8_iterator_order_by_logical_position (a b : basic_iterator)
    (hcap : a.cap = b.cap) (hbeg : a.ind_begin = b.ind_begin) (hc : 0 < a.cap)
    (hba : a.ind_begin ≤ a.cap) :
    (ltIter a b ↔ logicalPosZ a < logicalPosZ b) ∧
    subIter a b = logicalPosZ a - logicalPosZ b ∧
    (a.get_pos : Int) = logicalPosZ a := by
  have ha := get_pos_intCast a hc hba
  have hb := get_pos_intCast b (by omega) (by omega)
  refine ⟨?_, ?_, ha⟩
  · rw [ltIter, ← ha, ← hb]
    exact Int.ofNat_lt.symm
  · rw [subIter, ha, hb]

theorem c8_iterator_order_witness :
    ltIter (basic_iterator.mk 2 4 1 1) (basic_iterator.mk 0 4 1 1) ↔
      logicalPosZ (basic_iterator.mk 2 4 1 1) < logicalPosZ (basic_iterator.mk 0 4 1 1) :=
  (c8_iterator_order_by_logical_position (basic_iterator.mk 2 4 1 1)
    (basic_iterator.mk 0 4 1 1) (by decide) (by decide) (by decide) (by decide)).1

/-- C9: the member `swap` (and the free `swap`, which delegates to it)
exchanges the complete states of the two containers — afterwards each holds
exactly the fields, storage and hence element sequence the other held; the
storage blocks change hands untouched (only the five fields, including the
`data` handle, are exchanged; no element is copied, constructed or
destroyed). -/
theorem c9_swap_exchanges_states (a b : circular_buffer α) :
    swapCB a b = (b, a) ∧ swapFree a b = (b, a) ∧
    (swapCB a b).1.toList = b.toList ∧ (swapCB a b).2.toList = a.toList :=
  ⟨rfl, rfl, rfl, rfl⟩

/-- C10: `clear()` destroys all elements, releases the block and resets the
container to the default-constructed state (`sz = cap = ind_begin = ind_end
= 0`, null storage); the old capacity is not kept, so the next insertion
allocates a fresh block of capacity 4. -/
theorem c10_clear_resets (b : circular_buffer α) (v : α) :
    b.clear = emptyCB ∧ b.clear.sz = 0 ∧ b.clear.cap = 0 ∧ b.clear.data = [] ∧
    b.clear.ind_begin = 0 ∧ b.clear.ind_end = 0 ∧
    (b.clear.push_back v).cap = 4 ∧ (b.clear.push_back v).sz = 1 ∧
    (b.clear.push_back v).index 0 = some v ∧ (b.clear.push_front v).cap = 4 := by
  refine ⟨rfl, rfl, rfl, rfl, rfl, rfl, ?_, rfl, ?_, ?_⟩
  · rw [clear_eq]
    exact push_back_cap_empty emptyCB v rfl
  · rw [clear_eq]
    rfl
  · rw [clear_eq]
    exact push_front_cap_empty emptyCB v rfl

end circular_buffer
